import Mathlib

/-!
Verification of the atomic numeric cells of the rust-prometheus slice
(`src/atomic64.rs`): the three concrete cells `AtomicF64`, `AtomicI64`,
`AtomicU64` and the `Number` trait implementations for `i64`, `u64`, `f64`.

Embedding conventions.

Machine words are modelled as mathematical integers with explicit
reduction modulo `2 ^ 64`:
- a `u64` word is a `Nat` that is well formed when it is below `2 ^ 64`;
- an `i64` value is an `Int` in the range `[-2 ^ 63, 2 ^ 63)`; the backing
  hardware word of `AtomicI64` (a `std::sync::atomic::AtomicI64`) is
  modelled by its twos-complement bit pattern, a `Nat` below `2 ^ 64`,
  decoded by `bits_to_i64` and encoded by `i64_to_bits`;
- an `f64` value is identified with its IEEE-754 binary64 bit pattern, a
  `Nat` below `2 ^ 64`.  This identification is exact: binary64 values
  (distinct NaN payloads included) are in bijection with 64-bit patterns,
  and `f64::to_bits` / `f64::from_bits` are transmutes.  Under it the two
  helpers `f64_to_u64` and `u64_to_f64` of the source are the identity,
  and Rust unary negation on `f64` is the sign-bit flip `fneg`.

Rust binary `+` on `f64` (IEEE-754 binary64 addition) is kept abstract:
operations of the float cell that use it take it as an explicit function
argument `fadd` on bit patterns.  Theorems below are universally
quantified over `fadd`, so they hold in particular for the true IEEE-754
addition, and they show that the code applies that function uniformly to
every pair of bit patterns, NaN and infinity patterns included.

The cells are stateful Rust objects; the embedding is sequential state
passing: every mutating operation returns the new cell.  The
compare-and-swap retry loop of `AtomicF64::inc_by` always succeeds on its
first iteration in a single-thread execution (the load and the swap see
the same word), so its sequential semantics is: store the bit pattern of
the sum of the current value and the delta.
-/

/-- Sign-bit flip on a 64-bit IEEE-754 pattern: the semantics of Rust
unary negation on `f64`, defined for every pattern (NaN included). -/
def fneg (b : Nat) : Nat :=
  if b < 2 ^ 63 then b + 2 ^ 63 else b - 2 ^ 63

/-- Source helper `u64_to_f64` (`f64::from_bits`): a transmute, the
identity under the pattern identification. -/
def u64_to_f64 (val : Nat) : Nat := val

/-- Source helper `f64_to_u64` (`f64::to_bits`): a transmute, the
identity under the pattern identification. -/
def f64_to_u64 (val : Nat) : Nat := val

/-- Twos-complement encoding of an integer into a 64-bit word. On the
`i64` range this is the bit pattern of the value; it is also the
semantics of the Rust cast `v as u64`. -/
def i64_to_bits (v : Int) : Nat := (v % 2 ^ 64).toNat

/-- Twos-complement decoding of a 64-bit word into the signed value the
hardware `i64` word denotes. -/
def bits_to_i64 (p : Nat) : Int :=
  if p < 2 ^ 63 then (p : Int) else (p : Int) - 2 ^ 64

/-- Reduction of an integer into the `i64` range, the spec-side notion of
twos-complement wraparound modulo `2 ^ 64`. -/
def wrapI64 (z : Int) : Int := (z + 2 ^ 63) % 2 ^ 64 - 2 ^ 63

/-- The Rust atomic float cell: a `StdAtomicU64` word holding the
IEEE-754 bit pattern of the logical value. -/
structure AtomicF64 where
  inner : Nat

/-- Source `AtomicF64::new`: store the bit pattern of the value. -/
def AtomicF64.new (val : Nat) : AtomicF64 :=
  AtomicF64.mk (f64_to_u64 val)

/-- Source `AtomicF64::set`: relaxed store of the bit pattern. -/
def AtomicF64.set (_c : AtomicF64) (val : Nat) : AtomicF64 :=
  AtomicF64.mk (f64_to_u64 val)

/-- Source `AtomicF64::get`: relaxed load, reinterpret bits as float. -/
def AtomicF64.get (c : AtomicF64) : Nat :=
  u64_to_f64 c.inner

/-- Source `AtomicF64::inc_by`: sequential semantics of the CAS retry
loop (first iteration succeeds): read the word, add `delta` with the
float addition `fadd`, store the bit pattern of the sum. -/
def AtomicF64.inc_by (fadd : Nat → Nat → Nat) (c : AtomicF64) (delta : Nat) : AtomicF64 :=
  AtomicF64.mk (f64_to_u64 (fadd (u64_to_f64 c.inner) delta))

/-- Source `AtomicF64::dec_by`: `self.inc_by(-delta)`. -/
def AtomicF64.dec_by (fadd : Nat → Nat → Nat) (c : AtomicF64) (delta : Nat) : AtomicF64 :=
  AtomicF64.inc_by fadd c (fneg delta)

/-- The Rust atomic signed cell: a `StdAtomicI64` hardware word, modelled
by its twos-complement bit pattern. -/
structure AtomicI64 where
  inner : Nat

/-- Source `AtomicI64::new`. -/
def AtomicI64.new (val : Int) : AtomicI64 :=
  AtomicI64.mk (i64_to_bits val)

/-- Source `AtomicI64::set`: relaxed store. -/
def AtomicI64.set (_c : AtomicI64) (val : Int) : AtomicI64 :=
  AtomicI64.mk (i64_to_bits val)

/-- Source `AtomicI64::get`: relaxed load. -/
def AtomicI64.get (c : AtomicI64) : Int :=
  bits_to_i64 c.inner

/-- Source `AtomicI64::inc_by`: hardware `fetch_add`, a wrapping addition
of twos-complement words. -/
def AtomicI64.inc_by (c : AtomicI64) (delta : Int) : AtomicI64 :=
  AtomicI64.mk ((c.inner + i64_to_bits delta) % 2 ^ 64)

/-- Source `AtomicI64::dec_by`: hardware `fetch_sub`, a wrapping
subtraction of twos-complement words. -/
def AtomicI64.dec_by (c : AtomicI64) (delta : Int) : AtomicI64 :=
  AtomicI64.mk ((c.inner + (2 ^ 64 - i64_to_bits delta)) % 2 ^ 64)

/-- The Rust atomic unsigned cell: a `StdAtomicU64` word. -/
structure AtomicU64 where
  inner : Nat

/-- Source `AtomicU64::new`; the argument is a `u64`, expressed by the
reduction modulo `2 ^ 64`. -/
def AtomicU64.new (val : Nat) : AtomicU64 :=
  AtomicU64.mk (val % 2 ^ 64)

/-- Source `AtomicU64::set`: relaxed store. -/
def AtomicU64.set (_c : AtomicU64) (val : Nat) : AtomicU64 :=
  AtomicU64.mk (val % 2 ^ 64)

/-- Source `AtomicU64::get`: relaxed load. -/
def AtomicU64.get (c : AtomicU64) : Nat :=
  c.inner

/-- Source `AtomicU64::inc_by`: hardware `fetch_add`, wrapping. -/
def AtomicU64.inc_by (c : AtomicU64) (delta : Nat) : AtomicU64 :=
  AtomicU64.mk ((c.inner + delta) % 2 ^ 64)

/-- Source `AtomicU64::dec_by`: hardware `fetch_sub`, wrapping. -/
def AtomicU64.dec_by (c : AtomicU64) (delta : Nat) : AtomicU64 :=
  AtomicU64.mk ((c.inner + (2 ^ 64 - delta % 2 ^ 64)) % 2 ^ 64)

/-- Source `impl Number for i64`, `from_i64`: the identity. -/
def i64_from_i64 (v : Int) : Int := v

/-- Source `impl Number for u64`, `from_i64`: the Rust cast `v as u64`,
a twos-complement reinterpretation of the signed argument. -/
def u64_from_i64 (v : Int) : Nat := i64_to_bits v

/-- Source `impl Number for f64`, `into_f64`: the identity. -/
def f64_into_f64 (b : Nat) : Nat := b

-- Sanity checks of the embedding on the concrete values of the source
-- test module.
example : (AtomicI64.new 0).get = 0 := by decide
example : ((AtomicI64.new 0).inc_by 1).get = 1 := by decide
example : (((AtomicI64.new 0).inc_by 1).inc_by (-5)).get = -4 := by decide
example : ((AtomicU64.new 0).inc_by 123).get = 123 := by decide

-- A first arithmetic lemma, exercising the proof style used throughout:
-- unfold, then close with linear arithmetic over the literal modulus.
theorem bits_to_i64_i64_to_bits (v : Int) (h1 : -2 ^ 63 ≤ v) (h2 : v < 2 ^ 63) :
    bits_to_i64 (i64_to_bits v) = v := by
  unfold bits_to_i64 i64_to_bits
  split <;> omega

-- Range and congruence lemmas about the integer encodings.

theorem i64_to_bits_lt (v : Int) : i64_to_bits v < 2 ^ 64 := by
  unfold i64_to_bits; omega

theorem bits_to_i64_range (p : Nat) (h : p < 2 ^ 64) :
    -2 ^ 63 ≤ bits_to_i64 p ∧ bits_to_i64 p < 2 ^ 63 := by
  unfold bits_to_i64; split <;> omega

/-- C1: starting from any stored value, `inc_by(d)` followed by `get()`
yields exactly the result of the float addition applied to the current
value and `d`.  The statement is universally quantified over the addition
function `fadd`, so it holds for IEEE-754 binary64 addition in
particular, and over every pair of bit patterns, NaN, infinity and
signed-zero patterns included: the code applies `fadd` uniformly, with no
special-casing of non-finite operands. -/
theorem AtomicF64.inc_by_get (fadd : Nat → Nat → Nat) (c : AtomicF64) (d : Nat) :
    (c.inc_by fadd d).get = fadd c.get d := rfl

/-- C2: construction followed by `get` is the identity on the float cell,
at the level of IEEE-754 bit patterns, so every double (0.0, subnormals,
largest and smallest finite values, NaN with any payload) round-trips
bit-exactly. -/
theorem AtomicF64.new_get (f : Nat) : (AtomicF64.new f).get = f := rfl

/-- C5: on the float cell, `dec_by(d)` leaves the cell in a state
bit-identical to `inc_by(-d)`, for every addition function, every cell
state and every delta pattern (`fneg` is the Rust negation of `f64`, a
sign-bit flip). -/
theorem AtomicF64.dec_by_eq_inc_by_fneg (fadd : Nat → Nat → Nat) (c : AtomicF64) (d : Nat) :
    c.dec_by fadd d = c.inc_by fadd (fneg d) := rfl

/-- C3: on the integer cells, `inc_by(d)` then `get()` yields `x + d` and
`dec_by(d)` then `get()` yields `x - d`, computed modulo `2 ^ 64`
(twos-complement wraparound for the signed cell), for every current value
`x` and every delta, with no overflow check. -/
theorem integer_inc_dec_modular :
    (∀ (c : AtomicI64) (d : Int), c.inner < 2 ^ 64 →
        (c.inc_by d).get = wrapI64 (c.get + d) ∧
        (c.dec_by d).get = wrapI64 (c.get - d))
  ∧ (∀ (c : AtomicU64) (d : Nat), c.inner < 2 ^ 64 →
        (((c.inc_by d).get : Int) = ((c.get : Int) + (d : Int)) % 2 ^ 64 ∧
         ((c.dec_by d).get : Int) = ((c.get : Int) - (d : Int)) % 2 ^ 64)) := by
  constructor
  · intro c d h
    simp only [AtomicI64.inc_by, AtomicI64.dec_by, AtomicI64.get, bits_to_i64, i64_to_bits,
      wrapI64]
    constructor <;> (split_ifs <;> omega)
  · intro c d h
    simp only [AtomicU64.inc_by, AtomicU64.dec_by, AtomicU64.get]
    constructor <;> omega

/-- Witness for C3: concrete increments and decrements on both integer
cells. -/
theorem integer_inc_dec_modular_witness :
    ((AtomicI64.mk 1).inc_by (-5)).get = wrapI64 (1 + (-5))
  ∧ ((AtomicI64.mk 1).dec_by (-5)).get = wrapI64 (1 - (-5))
  ∧ (((AtomicU64.mk 5).inc_by 123).get : Int) = ((5 : Int) + 123) % 2 ^ 64
  ∧ (((AtomicU64.mk 5).dec_by 123).get : Int) = ((5 : Int) - 123) % 2 ^ 64 := by
  have h1 := integer_inc_dec_modular.1 (AtomicI64.mk 1) (-5) (by norm_num)
  have h2 := integer_inc_dec_modular.2 (AtomicU64.mk 5) 123 (by norm_num)
  exact ⟨h1.1, h1.2, h2.1, h2.2⟩

/-- C4: construction followed by `get` is the identity on both integer
cells, for every value of the respective 64-bit type. -/
theorem new_get_integer :
    (∀ v : Int, -2 ^ 63 ≤ v → v < 2 ^ 63 → (AtomicI64.new v).get = v)
  ∧ (∀ v : Nat, v < 2 ^ 64 → (AtomicU64.new v).get = v) := by
  constructor
  · intro v h1 h2
    exact bits_to_i64_i64_to_bits v h1 h2
  · intro v h
    simp only [AtomicU64.new, AtomicU64.get]
    omega

/-- Witness for C4: concrete round-trips through construction. -/
theorem new_get_integer_witness :
    (AtomicI64.new (-7)).get = -7 ∧ (AtomicU64.new 123).get = 123 :=
  ⟨new_get_integer.1 (-7) (by norm_num) (by norm_num), new_get_integer.2 123 (by norm_num)⟩

/-- C6: `from_i64` is exact for the integer `Number` types: it is the
identity on `i64`, and on `u64` the twos-complement reinterpretation is
lossless — decoding the resulting word recovers the original signed
argument, for every `i64` input, negative inputs included. -/
theorem from_i64_exact :
    (∀ v : Int, i64_from_i64 v = v)
  ∧ (∀ v : Int, -2 ^ 63 ≤ v → v < 2 ^ 63 → bits_to_i64 (u64_from_i64 v) = v) :=
  ⟨fun _ => rfl, fun v h1 h2 => bits_to_i64_i64_to_bits v h1 h2⟩

/-- Witness for C6: a negative input reinterprets and decodes back
exactly. -/
theorem from_i64_exact_witness :
    i64_from_i64 (-5) = -5 ∧ bits_to_i64 (u64_from_i64 (-5)) = -5 :=
  ⟨from_i64_exact.1 (-5), from_i64_exact.2 (-5) (by norm_num) (by norm_num)⟩

/-- C10: `set(v)` followed by `get()` returns exactly `v` on every cell:
bit-pattern-identically on the float cell (NaN payloads and signed zeros
pass through unchanged), and identically on the integer cells. -/
theorem set_get_roundtrip :
    (∀ (c : AtomicF64) (v : Nat), (c.set v).get = v)
  ∧ (∀ (c : AtomicI64) (v : Int), -2 ^ 63 ≤ v → v < 2 ^ 63 → (c.set v).get = v)
  ∧ (∀ (c : AtomicU64) (v : Nat), v < 2 ^ 64 → (c.set v).get = v) := by
  refine ⟨fun c v => rfl, fun c v h1 h2 => bits_to_i64_i64_to_bits v h1 h2, fun c v h => ?_⟩
  simp only [AtomicU64.set, AtomicU64.get]
  omega

/-- Witness for C10: concrete set/get round-trips on all three cells. -/
theorem set_get_roundtrip_witness :
    ((AtomicF64.mk 0).set 42).get = 42
  ∧ ((AtomicI64.mk 0).set (-9)).get = -9
  ∧ ((AtomicU64.mk 0).set 7).get = 7 :=
  ⟨set_get_roundtrip.1 (AtomicF64.mk 0) 42,
   set_get_roundtrip.2.1 (AtomicI64.mk 0) (-9) (by norm_num) (by norm_num),
   set_get_roundtrip.2.2 (AtomicU64.mk 0) 7 (by norm_num)⟩

-- Finite sequences of client calls on the integer cells, for the
-- cancellation property.

/-- One client call on the signed cell: an increment or a decrement by a
signed delta. -/
inductive I64Op where
  | inc (d : Int)
  | dec (d : Int)

/-- Apply one call to the signed cell. -/
def I64Op.apply (op : I64Op) (c : AtomicI64) : AtomicI64 :=
  match op with
  | .inc d => c.inc_by d
  | .dec d => c.dec_by d

/-- The signed contribution of one call to the running total: `+d` for an
increment, `-d` for a decrement. -/
def I64Op.delta : I64Op → Int
  | .inc d => d
  | .dec d => -d

/-- Run a finite sequence of calls on the signed cell, first call
first. -/
def AtomicI64.run (c : AtomicI64) : List I64Op → AtomicI64
  | [] => c
  | op :: rest => AtomicI64.run (op.apply c) rest

/-- Sum of the signed contributions of a sequence of calls on the signed
cell. -/
def i64OpsSum : List I64Op → Int
  | [] => 0
  | op :: rest => op.delta + i64OpsSum rest

/-- One client call on the unsigned cell, with an unsigned delta. -/
inductive U64Op where
  | inc (d : Nat)
  | dec (d : Nat)

/-- Apply one call to the unsigned cell. -/
def U64Op.apply (op : U64Op) (c : AtomicU64) : AtomicU64 :=
  match op with
  | .inc d => c.inc_by d
  | .dec d => c.dec_by d

/-- The signed contribution of one call on the unsigned cell. -/
def U64Op.delta : U64Op → Int
  | .inc d => (d : Int)
  | .dec d => -(d : Int)

/-- Run a finite sequence of calls on the unsigned cell, first call
first. -/
def AtomicU64.run (c : AtomicU64) : List U64Op → AtomicU64
  | [] => c
  | op :: rest => AtomicU64.run (op.apply c) rest

/-- Sum of the signed contributions of a sequence of calls on the
unsigned cell. -/
def u64OpsSum : List U64Op → Int
  | [] => 0
  | op :: rest => op.delta + u64OpsSum rest

theorem i64Op_apply_inner (op : I64Op) (c : AtomicI64) :
    (op.apply c).inner < 2 ^ 64 ∧
    ((op.apply c).inner : Int) % 2 ^ 64 = ((c.inner : Int) + op.delta) % 2 ^ 64 := by
  cases op <;>
    simp only [I64Op.apply, I64Op.delta, AtomicI64.inc_by, AtomicI64.dec_by, i64_to_bits] <;>
    constructor <;> omega

theorem u64Op_apply_inner (op : U64Op) (c : AtomicU64) :
    (op.apply c).inner < 2 ^ 64 ∧
    ((op.apply c).inner : Int) % 2 ^ 64 = ((c.inner : Int) + op.delta) % 2 ^ 64 := by
  cases op <;>
    simp only [U64Op.apply, U64Op.delta, AtomicU64.inc_by, AtomicU64.dec_by] <;>
    constructor <;> omega

theorem i64_run_inner (ops : List I64Op) : ∀ (c : AtomicI64), c.inner < 2 ^ 64 →
    (c.run ops).inner < 2 ^ 64 ∧
    ((c.run ops).inner : Int) % 2 ^ 64 = ((c.inner : Int) + i64OpsSum ops) % 2 ^ 64 := by
  induction ops with
  | nil =>
    intro c h
    simp only [AtomicI64.run, i64OpsSum]
    constructor <;> omega
  | cons op rest ih =>
    intro c h
    simp only [AtomicI64.run, i64OpsSum]
    obtain ⟨hs1, hs2⟩ := i64Op_apply_inner op c
    obtain ⟨hr1, hr2⟩ := ih (op.apply c) hs1
    exact ⟨hr1, by omega⟩

theorem u64_run_inner (ops : List U64Op) : ∀ (c : AtomicU64), c.inner < 2 ^ 64 →
    (c.run ops).inner < 2 ^ 64 ∧
    ((c.run ops).inner : Int) % 2 ^ 64 = ((c.inner : Int) + u64OpsSum ops) % 2 ^ 64 := by
  induction ops with
  | nil =>
    intro c h
    simp only [AtomicU64.run, u64OpsSum]
    constructor <;> omega
  | cons op rest ih =>
    intro c h
    simp only [AtomicU64.run, u64OpsSum]
    obtain ⟨hs1, hs2⟩ := u64Op_apply_inner op c
    obtain ⟨hr1, hr2⟩ := ih (op.apply c) hs1
    exact ⟨hr1, by omega⟩

/-- C7: on each integer cell, a finite sequence of `inc_by` and `dec_by`
calls whose signed deltas sum to zero leaves `get()` at the initial
value: the increments and decrements cancel exactly under modular
arithmetic. -/
theorem cancel_to_initial :
    (∀ (c : AtomicI64) (ops : List I64Op), c.inner < 2 ^ 64 → i64OpsSum ops = 0 →
        (c.run ops).get = c.get)
  ∧ (∀ (c : AtomicU64) (ops : List U64Op), c.inner < 2 ^ 64 → u64OpsSum ops = 0 →
        (c.run ops).get = c.get) := by
  constructor
  · intro c ops h hsum
    obtain ⟨h1, h2⟩ := i64_run_inner ops c h
    rw [hsum] at h2
    have hinner : (c.run ops).inner = c.inner := by omega
    simp only [AtomicI64.get, hinner]
  · intro c ops h hsum
    obtain ⟨h1, h2⟩ := u64_run_inner ops c h
    rw [hsum] at h2
    have hinner : (c.run ops).inner = c.inner := by omega
    simp only [AtomicU64.get, hinner]

/-- Witness for C7: concrete zero-sum sequences on both integer cells. -/
theorem cancel_to_initial_witness :
    ((AtomicI64.mk 5).run [I64Op.inc 3, I64Op.dec 7, I64Op.inc 4]).get = (AtomicI64.mk 5).get
  ∧ ((AtomicU64.mk 9).run [U64Op.dec 2, U64Op.inc 2]).get = (AtomicU64.mk 9).get :=
  ⟨cancel_to_initial.1 (AtomicI64.mk 5) [I64Op.inc 3, I64Op.dec 7, I64Op.inc 4]
      (by norm_num) (by decide),
   cancel_to_initial.2 (AtomicU64.mk 9) [U64Op.dec 2, U64Op.inc 2]
      (by norm_num) (by decide)⟩

/-- C8: every public operation of every cell is a total function of its
inputs (in this embedding each is a Lean function, defined on every
input, with no error outcome), and no invalid numeric state is reachable
through them: each operation keeps the backing 64-bit word well formed,
and `get` returns a value in the range of the advertised numeric type.
For the float cell the increment and decrement preserve well-formedness
for every addition function whose results are 64-bit patterns, which
IEEE-754 binary64 addition is. -/
theorem operations_total :
    (∀ v : Nat, v < 2 ^ 64 → (AtomicF64.new v).inner < 2 ^ 64)
  ∧ (∀ (c : AtomicF64) (v : Nat), v < 2 ^ 64 → (c.set v).inner < 2 ^ 64)
  ∧ (∀ c : AtomicF64, c.inner < 2 ^ 64 → c.get < 2 ^ 64)
  ∧ (∀ (fadd : Nat → Nat → Nat) (c : AtomicF64) (d : Nat),
      (∀ a b : Nat, fadd a b < 2 ^ 64) → (c.inc_by fadd d).inner < 2 ^ 64)
  ∧ (∀ (fadd : Nat → Nat → Nat) (c : AtomicF64) (d : Nat),
      (∀ a b : Nat, fadd a b < 2 ^ 64) → (c.dec_by fadd d).inner < 2 ^ 64)
  ∧ (∀ v : Int, (AtomicI64.new v).inner < 2 ^ 64)
  ∧ (∀ (c : AtomicI64) (v : Int), (c.set v).inner < 2 ^ 64)
  ∧ (∀ c : AtomicI64, c.inner < 2 ^ 64 → -2 ^ 63 ≤ c.get ∧ c.get < 2 ^ 63)
  ∧ (∀ (c : AtomicI64) (d : Int), (c.inc_by d).inner < 2 ^ 64)
  ∧ (∀ (c : AtomicI64) (d : Int), (c.dec_by d).inner < 2 ^ 64)
  ∧ (∀ v : Nat, (AtomicU64.new v).inner < 2 ^ 64)
  ∧ (∀ (c : AtomicU64) (v : Nat), (c.set v).inner < 2 ^ 64)
  ∧ (∀ c : AtomicU64, c.inner < 2 ^ 64 → c.get < 2 ^ 64)
  ∧ (∀ (c : AtomicU64) (d : Nat), (c.inc_by d).inner < 2 ^ 64)
  ∧ (∀ (c : AtomicU64) (d : Nat), (c.dec_by d).inner < 2 ^ 64) :=
  ⟨fun _ h => h,
   fun _ _ h => h,
   fun _ h => h,
   fun _ c d hf => hf c.inner d,
   fun _ c d hf => hf c.inner (fneg d),
   fun v => i64_to_bits_lt v,
   fun _ v => i64_to_bits_lt v,
   fun c h => bits_to_i64_range c.inner h,
   fun _ _ => Nat.mod_lt _ (by norm_num),
   fun _ _ => Nat.mod_lt _ (by norm_num),
   fun _ => Nat.mod_lt _ (by norm_num),
   fun _ _ => Nat.mod_lt _ (by norm_num),
   fun _ h => h,
   fun _ _ => Nat.mod_lt _ (by norm_num),
   fun _ _ => Nat.mod_lt _ (by norm_num)⟩

/-- Witness for C8: the hypothesis-bearing components at concrete
inputs, with the wrapping addition as a concrete in-range `fadd`. -/
theorem operations_total_witness :
    (AtomicF64.new 3).inner < 2 ^ 64
  ∧ ((AtomicF64.mk 0).set 3).inner < 2 ^ 64
  ∧ (AtomicF64.mk 1).get < 2 ^ 64
  ∧ ((AtomicF64.mk 1).inc_by (fun a b => (a + b) % 2 ^ 64) 2).inner < 2 ^ 64
  ∧ ((AtomicF64.mk 1).dec_by (fun a b => (a + b) % 2 ^ 64) 2).inner < 2 ^ 64
  ∧ (-2 ^ 63 ≤ (AtomicI64.mk 3).get ∧ (AtomicI64.mk 3).get < 2 ^ 63)
  ∧ (AtomicU64.mk 3).get < 2 ^ 64 := by
  have hf : ∀ a b : Nat, (a + b) % 2 ^ 64 < 2 ^ 64 := fun _ _ => Nat.mod_lt _ (by norm_num)
  exact ⟨operations_total.1 3 (by norm_num),
    operations_total.2.1 (AtomicF64.mk 0) 3 (by norm_num),
    operations_total.2.2.1 (AtomicF64.mk 1) (by norm_num),
    operations_total.2.2.2.1 (fun a b => (a + b) % 2 ^ 64) (AtomicF64.mk 1) 2 hf,
    operations_total.2.2.2.2.1 (fun a b => (a + b) % 2 ^ 64) (AtomicF64.mk 1) 2 hf,
    operations_total.2.2.2.2.2.2.2.1 (AtomicI64.mk 3) (by norm_num),
    operations_total.2.2.2.2.2.2.2.2.2.2.2.2.1 (AtomicU64.mk 3) (by norm_num)⟩

-- The Rust cast `self as f64` on `u64` (used by `into_f64` of the `u64`
-- `Number` instance) converts to the nearest binary64 value, ties to
-- even.  The conversion is modelled on bit patterns: binary logarithm,
-- mantissa rounding, and the packed exponent/mantissa fields.

/-- Fuel-driven binary logarithm: `log2Aux fuel n` is the floor of the
base-2 logarithm of `n` whenever `0 < n ≤ fuel`. -/
def log2Aux : Nat → Nat → Nat
  | 0, _ => 0
  | fuel + 1, n => if n ≤ 1 then 0 else log2Aux fuel (n / 2) + 1

/-- Floor of the base-2 logarithm. -/
def log2floor (n : Nat) : Nat := log2Aux n n

/-- Mantissa of `v` after discarding `shift` low bits, rounded to
nearest, ties to even. -/
def roundMantissa (v shift : Nat) : Nat :=
  if 2 ^ (shift - 1) < v % 2 ^ shift ∨ (v % 2 ^ shift = 2 ^ (shift - 1) ∧ (v / 2 ^ shift) % 2 = 1)
  then v / 2 ^ shift + 1
  else v / 2 ^ shift

/-- Semantics of the Rust cast `v as f64` for a `u64` argument `v`: the
bit pattern of the nearest binary64 value, ties to even.  Values of at
most 53 significant bits are representable exactly; wider values round;
no `u64` reaches the infinite range. -/
def u64_into_f64 (v : Nat) : Nat :=
  if v = 0 then 0
  else if log2floor v ≤ 52 then
    (log2floor v + 1023) * 2 ^ 52 + (v * 2 ^ (52 - log2floor v) - 2 ^ 52)
  else if roundMantissa v (log2floor v - 52) = 2 ^ 53 then
    (log2floor v + 1024) * 2 ^ 52
  else
    (log2floor v + 1023) * 2 ^ 52 + (roundMantissa v (log2floor v - 52) - 2 ^ 52)

/-- Spec-side decoder: the real value denoted by a nonnegative finite
binary64 bit pattern, when that value is a natural number (the exponent
field of a pattern with a clear sign bit is the quotient by `2 ^ 52`).
Used to state exactness of conversions. -/
def f64_bits_to_nat? (b : Nat) : Option Nat :=
  if 2 ^ 63 ≤ b then none
  else if b / 2 ^ 52 = 2047 then none
  else if b / 2 ^ 52 = 0 then (if b % 2 ^ 52 = 0 then some 0 else none)
  else if 1075 ≤ b / 2 ^ 52 then
    some ((2 ^ 52 + b % 2 ^ 52) * 2 ^ (b / 2 ^ 52 - 1075))
  else if (2 ^ 52 + b % 2 ^ 52) % 2 ^ (1075 - b / 2 ^ 52) = 0 then
    some ((2 ^ 52 + b % 2 ^ 52) / 2 ^ (1075 - b / 2 ^ 52))
  else none

theorem log2Aux_spec : ∀ fuel n : Nat, 0 < n → n ≤ fuel →
    2 ^ log2Aux fuel n ≤ n ∧ n < 2 ^ (log2Aux fuel n + 1) := by
  intro fuel
  induction fuel with
  | zero =>
    intro n h1 h2
    exact absurd h1 (by omega)
  | succ f ih =>
    intro n h1 h2
    by_cases hn : n ≤ 1
    · have hone : n = 1 := by omega
      subst hone
      norm_num [log2Aux]
    · have hrec := ih (n / 2) (by omega) (by omega)
      have heq : log2Aux (f + 1) n = log2Aux f (n / 2) + 1 := by
        simp [log2Aux, hn]
      rw [heq]
      obtain ⟨ha, hb⟩ := hrec
      constructor
      · calc 2 ^ (log2Aux f (n / 2) + 1) = 2 ^ log2Aux f (n / 2) * 2 := pow_succ 2 _
          _ ≤ (n / 2) * 2 := Nat.mul_le_mul_right 2 ha
          _ ≤ n := by omega
      · calc n < (n / 2 + 1) * 2 := by omega
          _ ≤ 2 ^ (log2Aux f (n / 2) + 1) * 2 := Nat.mul_le_mul_right 2 (by omega)
          _ = 2 ^ (log2Aux f (n / 2) + 1 + 1) := (pow_succ 2 _).symm

theorem log2floor_spec (n : Nat) (h : 0 < n) :
    2 ^ log2floor n ≤ n ∧ n < 2 ^ (log2floor n + 1) :=
  log2Aux_spec n n h (Nat.le_refl n)

theorem u64_into_f64_eq_small (v : Nat) (h0 : 0 < v) (h52 : log2floor v ≤ 52) :
    u64_into_f64 v = (log2floor v + 1023) * 2 ^ 52 + (v * 2 ^ (52 - log2floor v) - 2 ^ 52) := by
  unfold u64_into_f64
  rw [if_neg (by omega), if_pos h52]

theorem encode_aux (e w : Nat) (he52 : e ≤ 52) (h1 : 2 ^ 52 ≤ w) (h2 : w < 2 ^ 53)
    (hdvd : w % 2 ^ (52 - e) = 0) :
    f64_bits_to_nat? ((e + 1023) * 2 ^ 52 + (w - 2 ^ 52)) = some (w / 2 ^ (52 - e)) := by
  unfold f64_bits_to_nat?
  have hmlt : w - 2 ^ 52 < 2 ^ 52 := by omega
  have hdiv : ((e + 1023) * 2 ^ 52 + (w - 2 ^ 52)) / 2 ^ 52 = e + 1023 := by omega
  have hmod : ((e + 1023) * 2 ^ 52 + (w - 2 ^ 52)) % 2 ^ 52 = w - 2 ^ 52 := by omega
  rw [hdiv, hmod]
  rw [if_neg (by omega), if_neg (by omega), if_neg (by omega)]
  have hww : 2 ^ 52 + (w - 2 ^ 52) = w := by omega
  by_cases hc : 52 ≤ e
  · have he : e = 52 := by omega
    subst he
    rw [if_pos (by omega), hww]
    norm_num
  · rw [if_neg (by omega)]
    have h52e : 1075 - (e + 1023) = 52 - e := by omega
    rw [h52e, hww, if_pos hdvd]

theorem u64_into_f64_exact_small (v : Nat) (h0 : 0 < v) (h1 : v < 2 ^ 53) :
    f64_bits_to_nat? (u64_into_f64 v) = some v := by
  obtain ⟨hlo, hhi⟩ := log2floor_spec v h0
  have he52 : log2floor v ≤ 52 := by
    by_contra hcon
    have hp : (2 : Nat) ^ 53 ≤ 2 ^ log2floor v := Nat.pow_le_pow_right (by norm_num) (by omega)
    have hp2 : (2 : Nat) ^ 53 ≤ v := le_trans hp hlo
    omega
  have hpow : (2 : Nat) ^ log2floor v * 2 ^ (52 - log2floor v) = 2 ^ 52 := by
    rw [← pow_add]
    congr 1
    omega
  have hpow2 : (2 : Nat) ^ (log2floor v + 1) * 2 ^ (52 - log2floor v) = 2 ^ 53 := by
    rw [← pow_add]
    congr 1
    omega
  have hple : 2 ^ 52 ≤ v * 2 ^ (52 - log2floor v) := by
    calc (2 : Nat) ^ 52 = 2 ^ log2floor v * 2 ^ (52 - log2floor v) := hpow.symm
      _ ≤ v * 2 ^ (52 - log2floor v) := mul_le_mul_right' hlo _
  have hplt : v * 2 ^ (52 - log2floor v) < 2 ^ 53 := by
    calc v * 2 ^ (52 - log2floor v) < 2 ^ (log2floor v + 1) * 2 ^ (52 - log2floor v) :=
        mul_lt_mul_of_pos_right hhi (by positivity)
      _ = 2 ^ 53 := hpow2
  rw [u64_into_f64_eq_small v h0 he52]
  rw [encode_aux (log2floor v) (v * 2 ^ (52 - log2floor v)) he52 hple hplt
    (Nat.mul_mod_left _ _)]
  rw [Nat.mul_div_cancel _ (by positivity)]

theorem log2floor_two53 : log2floor (2 ^ 53) = 53 := by
  obtain ⟨hlo, hhi⟩ := log2floor_spec (2 ^ 53) (by positivity)
  rcases Nat.lt_trichotomy (log2floor (2 ^ 53)) 53 with hl | he | hg
  · have hle : (2 : Nat) ^ (log2floor (2 ^ 53) + 1) ≤ 2 ^ 53 :=
      Nat.pow_le_pow_right (by norm_num) (by omega)
    exact absurd hhi (not_lt.mpr hle)
  · exact he
  · have hle : (2 : Nat) ^ 54 ≤ 2 ^ log2floor (2 ^ 53) :=
      Nat.pow_le_pow_right (by norm_num) (by omega)
    have hcon := le_trans hle hlo
    norm_num at hcon

theorem u64_into_f64_exact_two53 :
    f64_bits_to_nat? (u64_into_f64 (2 ^ 53)) = some (2 ^ 53) := by
  have hr : roundMantissa (2 ^ 53) 1 = 2 ^ 52 := by
    unfold roundMantissa
    norm_num
  unfold u64_into_f64
  rw [log2floor_two53]
  rw [if_neg (by norm_num), if_neg (by norm_num)]
  have hsh : (53 : Nat) - 52 = 1 := by norm_num
  rw [hsh, hr, if_neg (by norm_num)]
  norm_num [f64_bits_to_nat?]

/-- C9: `into_f64` is exact for the float type — it is the identity on
bit patterns — and the `u64` conversion to double is exact for every
value of at most `2 ^ 53`: decoding the produced pattern recovers the
argument, so precision loss can occur only beyond `2 ^ 53`. -/
theorem into_f64_exact :
    (∀ b : Nat, f64_into_f64 b = b)
  ∧ (∀ v : Nat, v ≤ 2 ^ 53 → f64_bits_to_nat? (u64_into_f64 v) = some v) := by
  refine ⟨fun _ => rfl, fun v hv => ?_⟩
  rcases Nat.eq_zero_or_pos v with h0 | h0
  · subst h0
    decide
  · rcases Nat.lt_or_ge v (2 ^ 53) with hlt | hge
    · exact u64_into_f64_exact_small v h0 hlt
    · have hv53 : v = 2 ^ 53 := by omega
      rw [hv53]
      exact u64_into_f64_exact_two53

/-- Witness for C9: the identity on a concrete pattern, and a concrete
small value converting exactly. -/
theorem into_f64_exact_witness :
    f64_into_f64 7 = 7 ∧ f64_bits_to_nat? (u64_into_f64 3) = some 3 :=
  ⟨into_f64_exact.1 7, into_f64_exact.2 3 (by norm_num)⟩
